import Mathlib

/-!
Shallow embedding of the label-indexing core of the repository: the `Index`
type (`src/index/mod.rs`, a wrapper around an insertion-ordered, duplicate-free
`IndexSet<L>`) and the `Series` type (`src/series/mod.rs`, an `Index` paired
with a parallel value vector), together with proofs about the behaviour of
their operations.

Machine integers (`usize`) are modelled as `Nat`; the only place the source
uses checked arithmetic is `usize::checked_add(1)` on a range endpoint, which
cannot overflow for any realisable index length, so it is modelled as `+ 1`.
Rust `Option`/`Result` become Lean `Option`/`Except`.
-/

namespace Rustable

/-- Embedding of `std::ops::Bound`: one endpoint of a range. -/
inductive Bound (α : Type) where
  | included (a : α)
  | excluded (a : α)
  | unbounded
deriving DecidableEq, Repr

/-- Position of the (unique) entry equal to `label`, embedding
`IndexSet::get_index_of` used by `Index::index_of`. -/
def idxOfList [DecidableEq L] (label : L) : List L → Option Nat
  | [] => none
  | x :: xs => if x = label then some 0 else (idxOfList label xs).map (· + 1)

/-- Collects a list of options into an option of a list, embedding
`Iterator::collect::<Option<Vec<_>>>()`. -/
def allSome : List (Option α) → Option (List α)
  | [] => some []
  | none :: _ => none
  | some a :: rest => (allSome rest).map (a :: ·)

/-- Embedding of the positional `retain` loops of `Series::retain`,
`SeriesDense::retain` and `Series::drop_none`: a counter `p` starts at `n` and
is incremented once per element, and the element is kept iff `keep p`. -/
def filterIdx (keep : Nat → Bool) : List α → Nat → List α
  | [], _ => []
  | x :: xs, n => if keep n then x :: filterIdx keep xs (n + 1) else filterIdx keep xs (n + 1)

theorem filterIdx_sublist (keep : Nat → Bool) : ∀ (xs : List α) (n : Nat),
    (filterIdx keep xs n).Sublist xs := by
  intro xs
  induction xs with
  | nil => intro n; simp [filterIdx]
  | cons x xs ih =>
    intro n
    simp only [filterIdx]
    split
    · exact (ih (n + 1)).cons₂ x
    · exact (ih (n + 1)).cons x

/-- The positions (starting the count at `n`) of the pairs on which the
predicate returns `true`; embeds the `pos_to_drop` (`Series::retain`) /
"selected positions" (`SeriesDense::retain`) hash-set construction. -/
def trueIdx (pred : L → V → Bool) : Nat → List (L × V) → List Nat
  | _, [] => []
  | n, (l, v) :: ps =>
    if pred l v then n :: trueIdx pred (n + 1) ps else trueIdx pred (n + 1) ps

/-- The positions (starting the count at `n`) of the `None` values; embeds the
`pos_to_drop` hash-set construction of `Series::drop_none`. -/
def nonePos : Nat → List (Option R) → List Nat
  | _, [] => []
  | n, none :: vs => n :: nonePos (n + 1) vs
  | n, some _ :: vs => nonePos (n + 1) vs

/-- Embedding of `Index<L>`: `IndexSet<L>` is an insertion-ordered sequence of
labels with no duplicates (the duplicate-free property is an invariant of every
reachable value of the Rust type, so it is carried in the structure). -/
structure Index (L : Type) where
  labels : List L
  nodup : labels.Nodup

namespace Index

/-- `Index::len`. -/
def len (I : Index L) : Nat := I.labels.length

/-- `Index::iloc`: the label at a position, `None` when out of bounds. -/
def iloc (I : Index L) (pos : Nat) : Option L := I.labels[pos]?

/-- `Index::index_of`: the position of a label, `None` when absent. -/
def index_of [DecidableEq L] (I : Index L) (label : L) : Option Nat :=
  idxOfList label I.labels

/-- `Index::contains`. -/
def contains [DecidableEq L] (I : Index L) (label : L) : Bool :=
  decide (label ∈ I.labels)

/-- `Index::push` (`IndexSet::insert`): appends the label if absent. The
source also returns whether an insertion happened; that flag is not used by
any claim, so only the resulting `Index` is modelled. -/
def push [DecidableEq L] (I : Index L) (label : L) : Index L :=
  if h : label ∈ I.labels then I
  else
    ⟨I.labels ++ [label],
     (List.perm_append_singleton label I.labels).nodup_iff.mpr
       (List.nodup_cons.mpr ⟨h, I.nodup⟩)⟩

/-- The empty `Index` (`Index::new`). -/
def empty : Index L := ⟨[], List.nodup_nil⟩

/-- `Index::from` / `FromIterator for Index`: collecting into an `IndexSet`
inserts each label in turn, keeping the first occurrence of a duplicate. -/
def fromList [DecidableEq L] (xs : List L) : Index L :=
  xs.foldl push empty

/-- `Index::to_nodule`: validates a range endpoint, accepting `idx == len`. -/
def to_nodule (I : Index L) (idx : Nat) : Option Nat :=
  if idx ≤ I.len then some idx else none

/-- Resolution of the start bound of `Index::iloc_range`. -/
def startNodule (I : Index L) : Bound Nat → Option Nat
  | .included idx => I.to_nodule idx
  | .excluded idx => I.to_nodule (idx + 1)
  | .unbounded => some 0

/-- Resolution of the end bound of `Index::iloc_range`. -/
def closeNodule (I : Index L) : Bound Nat → Option Nat
  | .included idx => I.to_nodule (idx + 1)
  | .excluded idx => I.to_nodule idx
  | .unbounded => some I.len

/-- `Index::iloc_range`: validates both endpoints, then collects the labels of
the positions in `start..close`. -/
def iloc_range (I : Index L) (b1 b2 : Bound Nat) : Option (List L) :=
  match I.startNodule b1, I.closeNodule b2 with
  | some s, some c => allSome ((List.range' s (c - s)).map fun p => I.iloc p)
  | _, _ => none

/-- The bound-translation step of `Index::loc_range`: each bounded endpoint
label is resolved to a position through `index_of`, failing when absent. -/
def resolveBound [DecidableEq L] (I : Index L) : Bound L → Option (Bound Nat)
  | .included l => (I.index_of l).map .included
  | .excluded l => (I.index_of l).map .excluded
  | .unbounded => some .unbounded

/-- `Index::loc_range`: resolves both label bounds, then calls `iloc_range`. -/
def loc_range [DecidableEq L] (I : Index L) (b1 b2 : Bound L) : Option (List L) :=
  match I.resolveBound b1, I.resolveBound b2 with
  | some n1, some n2 => I.iloc_range n1 n2
  | _, _ => none

/-- `Index::reverse`. -/
def reverse (I : Index L) : Index L :=
  ⟨I.labels.reverse, List.nodup_reverse.mpr I.nodup⟩

/-- `Index::arg_sort`: the positions `0..len` stably sorted by the label they
address (`Vec::sort_by` is a stable sort; any stable sort of the same total
preorder produces the same list, so it is modelled with insertion sort). -/
def arg_sort [LinearOrder L] [Inhabited L] (I : Index L) : List Nat :=
  List.insertionSort (fun a b => I.labels.getD a default ≤ I.labels.getD b default)
    (List.range I.len)

/-- `PartialEq for Index`: `Iterator::eq` of the two label sequences, i.e.
elementwise (order-sensitive) equality of the label lists. -/
def beq [DecidableEq L] (I J : Index L) : Bool :=
  I.labels == J.labels

end Index

/-- Embedding of the error `DuplicateIndexLabel<L>`, carrying the offending
label. -/
structure DuplicateIndexLabel (L : Type) where
  label : L
deriving DecidableEq, Repr

/-- Embedding of the error `OverlappingIndex` (a unit struct). -/
inductive OverlappingIndex where
  | mk
deriving DecidableEq, Repr

/-- Embedding of the error `LengthMismatch<L, V>`, returning the mismatched
inputs to the caller. -/
structure LengthMismatch (L V : Type) where
  index : Index L
  values : List V

/-- Embedding of `Series<L, V>`: an `Index` paired with a parallel value
vector. The equal-length invariant is asserted at runtime by the source
(`assert_len`); here it is proved to be preserved (claim about invariants)
rather than carried in the type. -/
structure Series (L V : Type) where
  index : Index L
  values : List V

namespace Series

/-- The loop body of `Series::from_iter_checked`, with the accumulated index
and values made explicit. -/
def fromIterGo [DecidableEq L] (index : Index L) (values : List V) :
    List (L × V) → Except (DuplicateIndexLabel L) (Series L V)
  | [] => .ok ⟨index, values⟩
  | (label, value) :: rest =>
    if index.contains label then .error ⟨label⟩
    else fromIterGo (index.push label) (values ++ [value]) rest

/-- `Series::from_iter_checked`: builds incrementally, failing on the first
duplicated label. -/
def from_iter_checked [DecidableEq L] (pairs : List (L × V)) :
    Except (DuplicateIndexLabel L) (Series L V) :=
  fromIterGo Index.empty [] pairs

/-- `Series::from_values`: fails when the two lengths differ, returning the
inputs inside the error. -/
def from_values (index : Index L) (values : List V) :
    Except (LengthMismatch L V) (Series L V) :=
  if index.len ≠ values.length then .error ⟨index, values⟩
  else .ok ⟨index, values⟩

/-- `Series::retain`: collects into `pos_to_drop` the positions of the pairs
on which `pred` returns `true`, then (when that set is non-empty) keeps, in
both the index and the value vector, exactly the positions not in it. -/
def retain [DecidableEq L] (s : Series L V) (pred : L → V → Bool) : Series L V :=
  let posToDrop := trueIdx pred 0 (s.index.labels.zip s.values)
  if posToDrop.isEmpty then s
  else
    { index := ⟨filterIdx (fun p => !decide (p ∈ posToDrop)) s.index.labels 0,
        (filterIdx_sublist _ s.index.labels 0).nodup s.index.nodup⟩,
      values := filterIdx (fun p => !decide (p ∈ posToDrop)) s.values 0 }

/-- `Series::map`: transforms every value, leaving the index untouched. -/
def map (s : Series L V) (f : V → C) : Series L C :=
  ⟨s.index, s.values.map f⟩

/-- `Series::concat_checked`, as it stands in the source: it ignores `other`
and returns `Ok(self)` unconditionally. -/
def concat_checked (s _other : Series L V) : Except OverlappingIndex (Series L V) :=
  .ok s

/-- `Series::fill_none`: replaces every `None` value with the given one. -/
def fill_none (s : Series L (Option R)) (value : R) : Series L R :=
  ⟨s.index, s.values.map fun v => v.getD value⟩

/-- `Series::drop_none`: collects the raw values of the `Some` entries and the
positions of the `None` entries, then (when any) drops those positions from
the index. -/
def drop_none [DecidableEq L] (s : Series L (Option R)) : Series L R :=
  let posToDrop := nonePos 0 s.values
  let rawValues := s.values.filterMap id
  if posToDrop.isEmpty then ⟨s.index, rawValues⟩
  else
    { index := ⟨filterIdx (fun p => !decide (p ∈ posToDrop)) s.index.labels 0,
        (filterIdx_sublist _ s.index.labels 0).nodup s.index.nodup⟩,
      values := rawValues }

end Series

/-- `SeriesDense::retain` (`src/series/dense/mod.rs`): the same `pos_to_drop`
set of pred-true positions is computed, but the retain closures keep exactly
the positions that ARE in the set; the `Cow` borrow-or-own storage is elided
since it does not affect values. The shortcut branch when the set is empty is
kept. -/
def SeriesDense.retain [DecidableEq L] (s : Series L V) (pred : L → V → Bool) :
    Series L V :=
  let posToDrop := trueIdx pred 0 (s.index.labels.zip s.values)
  if posToDrop.isEmpty then s
  else
    { index := ⟨filterIdx (fun p => decide (p ∈ posToDrop)) s.index.labels 0,
        (filterIdx_sublist _ s.index.labels 0).nodup s.index.nodup⟩,
      values := filterIdx (fun p => decide (p ∈ posToDrop)) s.values 0 }

/-- The Series length invariant `len(index()) == len(values())` asserted by
`Series::assert_len`. -/
abbrev lenInvariant (s : Series L V) : Prop := s.index.len = s.values.length

/-- The length invariant for the result of a fallible constructor: it must
hold on the `Ok` payload (an `Err` exposes no `Series`). -/
def lenInvariantExcept : Except E (Series L V) → Prop
  | .ok t => lenInvariant t
  | .error _ => True

/-- Sample concrete `Series` used to instantiate hypotheses. -/
def sampleSeries : Series Nat Char := ⟨Index.fromList [0, 1], ['a', 'b']⟩

/-- Sample concrete `Series` of optional values. -/
def sampleOptSeries : Series Nat (Option Char) :=
  ⟨Index.fromList [0, 1, 2], [some 'a', none, some 'b']⟩

theorem filterIdx_length_eq (keep : Nat → Bool) :
    ∀ (xs : List α) (ys : List β) (n : Nat), xs.length = ys.length →
      (filterIdx keep xs n).length = (filterIdx keep ys n).length := by
  intro xs
  induction xs with
  | nil =>
    intro ys n h
    cases ys with
    | nil => rfl
    | cons y ys => simp at h
  | cons x xs ih =>
    intro ys n h
    cases ys with
    | nil => simp at h
    | cons y ys =>
      simp only [List.length_cons, Nat.succ.injEq] at h
      simp only [filterIdx]
      cases hk : keep n with
      | false => simpa using ih ys (n + 1) h
      | true => simpa using ih ys (n + 1) h

theorem filterIdx_congr :
    ∀ (xs : List α) (c c' : Nat → Bool) (n : Nat), (∀ p, n ≤ p → c p = c' p) →
      filterIdx c xs n = filterIdx c' xs n := by
  intro xs
  induction xs with
  | nil => intro c c' n h; rfl
  | cons x xs ih =>
    intro c c' n h
    simp only [filterIdx, h n (Nat.le_refl n)]
    rw [ih _ _ _ fun p hp => h p (Nat.le_of_succ_le hp)]

theorem mem_nonePos_le :
    ∀ (vs : List (Option R)) (n p : Nat), p ∈ nonePos n vs → n ≤ p := by
  intro vs
  induction vs with
  | nil => intro n p h; simp [nonePos] at h
  | cons v vs ih =>
    intro n p h
    cases v with
    | none =>
      simp only [nonePos, List.mem_cons] at h
      rcases h with h | h
      · exact h ▸ Nat.le_refl n
      · exact Nat.le_of_succ_le (ih (n + 1) p h)
    | some r =>
      simp only [nonePos] at h
      exact Nat.le_of_succ_le (ih (n + 1) p h)

theorem filterIdx_nonePos :
    ∀ (vs : List (Option R)) (ls : List L) (n : Nat), ls.length = vs.length →
      filterIdx (fun p => !decide (p ∈ nonePos n vs)) ls n
        = ((ls.zip vs).filter fun e => e.2.isSome).map Prod.fst := by
  intro vs
  induction vs with
  | nil =>
    intro ls n h
    cases ls with
    | nil => rfl
    | cons l ls => simp at h
  | cons v vs ih =>
    intro ls n h
    cases ls with
    | nil => simp at h
    | cons l ls =>
      simp only [List.length_cons, Nat.succ.injEq] at h
      cases v with
      | none =>
        simp only [filterIdx]
        rw [if_neg (by simp [nonePos])]
        rw [filterIdx_congr ls _ (fun p => !decide (p ∈ nonePos (n + 1) vs)) (n + 1)
          fun p hp => by
            have hne : p ≠ n := Nat.ne_of_gt hp
            simp [nonePos, hne],
          ih ls (n + 1) h]
        simp
      | some r =>
        have hmem : ¬ (n ∈ nonePos n (some r :: vs)) := by
          intro hc
          simp only [nonePos] at hc
          exact Nat.not_succ_le_self n (mem_nonePos_le vs (n + 1) n hc)
        simp only [filterIdx]
        rw [if_pos (by simp [hmem])]
        rw [filterIdx_congr ls _ (fun p => !decide (p ∈ nonePos (n + 1) vs)) (n + 1)
          fun p hp => by simp [nonePos],
          ih ls (n + 1) h]
        simp

theorem zip_filter_isSome_length :
    ∀ (ls : List L) (vs : List (Option R)), ls.length = vs.length →
      (((ls.zip vs).filter fun e => e.2.isSome).map Prod.fst).length
        = (vs.filterMap id).length := by
  intro ls
  induction ls with
  | nil =>
    intro vs h
    cases vs with
    | nil => rfl
    | cons v vs => simp at h
  | cons l ls ih =>
    intro vs h
    cases vs with
    | nil => simp at h
    | cons v vs =>
      simp only [List.length_cons, Nat.succ.injEq] at h
      cases v with
      | none => simpa using ih vs h
      | some r => simpa using ih vs h

theorem idxOfList_of_getElem [DecidableEq L] :
    ∀ (xs : List L) (p : Nat) (l : L), xs.Nodup → xs[p]? = some l →
      idxOfList l xs = some p := by
  intro xs
  induction xs with
  | nil => intro p l hn h; simp at h
  | cons x xs ih =>
    intro p l hn h
    rcases List.nodup_cons.mp hn with ⟨hx, hxs⟩
    cases p with
    | zero =>
      simp only [List.getElem?_cons_zero, Option.some.injEq] at h
      simp [idxOfList, h]
    | succ p =>
      simp only [List.getElem?_cons_succ] at h
      have hne : x ≠ l := by
        intro he
        exact hx (he ▸ List.getElem?_mem h)
      simp [idxOfList, hne, ih p l hxs h]

theorem idxOfList_of_mem [DecidableEq L] :
    ∀ (xs : List L) (l : L), l ∈ xs →
      ∃ p, idxOfList l xs = some p ∧ xs[p]? = some l := by
  intro xs
  induction xs with
  | nil => intro l h; simp at h
  | cons x xs ih =>
    intro l h
    by_cases he : x = l
    · exact ⟨0, by simp [idxOfList, he], by simp [he]⟩
    · have hmem : l ∈ xs := by
        rcases List.mem_cons.mp h with h | h
        · exact absurd h.symm he
        · exact h
      obtain ⟨p, h1, h2⟩ := ih l hmem
      exact ⟨p + 1, by simp [idxOfList, he, h1], by simpa using h2⟩

theorem fromIterGo_ok [DecidableEq L] :
    ∀ (pairs : List (L × V)) (index : Index L) (values : List V),
      (index.labels ++ pairs.map Prod.fst).Nodup →
      ∃ s, Series.fromIterGo index values pairs = .ok s
        ∧ s.index.labels = index.labels ++ pairs.map Prod.fst
        ∧ s.values = values ++ pairs.map Prod.snd := by
  intro pairs
  induction pairs with
  | nil =>
    intro index values h
    exact ⟨⟨index, values⟩, rfl, by simp, by simp⟩
  | cons pair rest ih =>
    intro index values h
    obtain ⟨l, v⟩ := pair
    simp only [List.map_cons] at h
    rcases List.nodup_append.mp h with ⟨h1, h2, h3⟩
    have hmem : l ∉ index.labels := fun hc => h3 hc (List.mem_cons_self l _)
    have hpush : (index.push l).labels = index.labels ++ [l] := by
      simp [Index.push, hmem]
    have h4 : ((index.push l).labels ++ rest.map Prod.fst).Nodup := by
      rw [hpush, List.append_assoc, List.singleton_append]
      exact h
    obtain ⟨s, hs, hsl, hsv⟩ := ih (index.push l) (values ++ [v]) h4
    refine ⟨s, ?_, ?_, ?_⟩
    · simp only [Series.fromIterGo]
      rw [if_neg (by simp [Index.contains, hmem])]
      exact hs
    · rw [hsl, hpush, List.append_assoc, List.singleton_append, List.map_cons]
    · rw [hsv, List.append_assoc, List.singleton_append, List.map_cons]

theorem fromIterGo_ok_nodup [DecidableEq L] :
    ∀ (pairs : List (L × V)) (index : Index L) (values : List V) (s : Series L V),
      Series.fromIterGo index values pairs = .ok s →
      (index.labels ++ pairs.map Prod.fst).Nodup := by
  intro pairs
  induction pairs with
  | nil =>
    intro index values s h
    simpa using index.nodup
  | cons pair rest ih =>
    intro index values s h
    obtain ⟨l, v⟩ := pair
    simp only [Series.fromIterGo] at h
    by_cases hmem : l ∈ index.labels
    · rw [if_pos (by simp [Index.contains, hmem])] at h
      exact absurd h (by simp)
    · rw [if_neg (by simp [Index.contains, hmem])] at h
      have h4 := ih (index.push l) (values ++ [v]) s h
      have hpush : (index.push l).labels = index.labels ++ [l] := by
        simp [Index.push, hmem]
      rw [hpush, List.append_assoc, List.singleton_append] at h4
      simpa using h4

theorem fromIterGo_len [DecidableEq L] :
    ∀ (pairs : List (L × V)) (index : Index L) (values : List V) (s : Series L V),
      index.len = values.length →
      Series.fromIterGo index values pairs = .ok s →
      s.index.len = s.values.length := by
  intro pairs
  induction pairs with
  | nil =>
    intro index values s h hok
    cases hok
    exact h
  | cons pair rest ih =>
    intro index values s h hok
    obtain ⟨l, v⟩ := pair
    simp only [Series.fromIterGo] at hok
    by_cases hmem : l ∈ index.labels
    · rw [if_pos (by simp [Index.contains, hmem])] at hok
      exact absurd hok (by simp)
    · rw [if_neg (by simp [Index.contains, hmem])] at hok
      refine ih (index.push l) (values ++ [v]) s ?_ hok
      have hpush : (index.push l).labels = index.labels ++ [l] := by
        simp [Index.push, hmem]
      simp only [Index.len, hpush, List.length_append, List.length_cons,
        List.length_nil] at *
      omega

theorem nonePos_nil_filterMap :
    ∀ (vs : List (Option R)) (n : Nat), nonePos n vs = [] →
      (vs.filterMap id).length = vs.length := by
  intro vs
  induction vs with
  | nil => intro n h; rfl
  | cons v vs ih =>
    intro n h
    cases v with
    | none => simp [nonePos] at h
    | some r =>
      simp only [nonePos] at h
      simpa using ih (n + 1) h

/-- C1: the claim says `Series::retain(pred)` keeps exactly the pairs on which
`pred` returns true. The code does the opposite: on the series
`[(0, a), (1, b)]` with the predicate `label == 0`, `Series::retain` keeps the
pair `(1, b)` — it drops the pred-true pairs — and `SeriesDense::retain`, when
the predicate selects nothing (here: constantly false on the same series),
keeps every pair instead of dropping them all. -/
theorem c1_retain_polarity_bug :
    ((Series.mk (Index.fromList [0, 1]) ['a', 'b']).retain
        fun l _ => decide (l = 0)).index.labels = [1]
    ∧ ((Series.mk (Index.fromList [0, 1]) ['a', 'b']).retain
        fun l _ => decide (l = 0)).values = ['b']
    ∧ (SeriesDense.retain (Series.mk (Index.fromList [0, 1]) ['a', 'b'])
        fun _ _ => false).index.labels = [0, 1]
    ∧ (SeriesDense.retain (Series.mk (Index.fromList [0, 1]) ['a', 'b'])
        fun _ _ => false).values = ['a', 'b'] := by
  refine ⟨?_, ?_, ?_, ?_⟩ <;> decide

/-- C2: the claim says `Series::concat_checked` returns
`Err(OverlappingIndex)` whenever the two indices share a label. The code never
checks: it returns `Ok(self)` unconditionally, also on two series whose
indices both contain the label `0`. -/
theorem c2_concat_checked_never_errors :
    (∀ (L V : Type) (s other : Series L V), s.concat_checked other = .ok s)
    ∧ (0 : Nat) ∈ (Series.mk (Index.fromList [0]) ['a']).index.labels
    ∧ (0 : Nat) ∈ (Series.mk (Index.fromList [0]) ['b']).index.labels
    ∧ (Series.mk (Index.fromList [(0 : Nat)]) ['a']).concat_checked
        (Series.mk (Index.fromList [0]) ['b'])
        = .ok (Series.mk (Index.fromList [(0 : Nat)]) ['a']) :=
  ⟨fun _ _ _ _ => rfl, by decide, by decide, rfl⟩

/-- C4 as stated is false: on `Index::from([10,20,30,40,50])`,
`loc_range(&20..&40)` does not return `Some([1,2])`. -/
theorem c4_counterexample :
    ¬ ((Index.fromList [10, 20, 30, 40, 50]).loc_range
        (.included 20) (.excluded 40) = some [1, 2]) := by
  decide

/-- C4 (amended): `loc_range` translates a label-bound range into the
sequence of labels occupying the corresponding position interval: on
`Index::from([10,20,30,40,50])`, `loc_range(&20..&40)` returns
`Some([20, 30])`, the labels sitting at positions 1 and 2. -/
theorem c4_loc_range_returns_labels :
    (Index.fromList [10, 20, 30, 40, 50]).loc_range (.included 20) (.excluded 40)
        = some [20, 30]
    ∧ (Index.fromList [10, 20, 30, 40, 50]).iloc 1 = some 20
    ∧ (Index.fromList [10, 20, 30, 40, 50]).iloc 2 = some 30 := by
  refine ⟨?_, ?_, ?_⟩ <;> decide

/-- C9: a position range bound equal to `len` is accepted as in-range by
`iloc_range`: `iloc_range(len..len)` returns `Some(empty)`, even though
`iloc(len)` itself is `None`. -/
theorem c9_iloc_range_accepts_len (L : Type) (I : Index L) :
    I.iloc_range (.included I.len) (.excluded I.len) = some []
    ∧ I.iloc I.len = none := by
  constructor
  · simp only [Index.iloc_range, Index.startNodule, Index.closeNodule,
      Index.to_nodule, if_pos (Nat.le_refl I.len), Nat.sub_self]
    simp [allSome]
  · simp [Index.iloc, Index.len]

/-- C10: `Index` equality is order-sensitive: two indices compare equal iff
their label sequences are equal as lists; reversing an index with two labels
out of order yields an unequal index over the same label set. -/
theorem c10_eq_order_sensitive :
    (∀ (L : Type) [DecidableEq L] (I J : Index L),
      Index.beq I J = true ↔ I.labels = J.labels)
    ∧ Index.beq (Index.fromList [1, 2]) (Index.fromList [1, 2]).reverse = false
    ∧ (Index.fromList [1, 2]).reverse.labels.Perm (Index.fromList [1, 2]).labels := by
  refine ⟨?_, by decide, by decide⟩
  intro L inst I J
  simp [Index.beq]

/-- C3: `loc_range`/`iloc_range` validate both endpoints independently even
when the interval is empty: an unresolvable or out-of-range endpoint makes the
call return `None`; when both endpoints resolve but start exceeds end the
result is `Some(empty)`. On `Index::from(chars of "ideographs")`,
`loc_range('g'..'g')` is `Some([])` while `loc_range('x'..'x')` is `None`. -/
theorem c3_range_endpoint_validation (L : Type) [DecidableEq L] (I : Index L)
    (bn1 bn2 : Bound Nat) (bl1 bl2 : Bound L) :
    (I.startNodule bn1 = none ∨ I.closeNodule bn2 = none →
      I.iloc_range bn1 bn2 = none)
    ∧ (∀ s c, I.startNodule bn1 = some s → I.closeNodule bn2 = some c → c < s →
      I.iloc_range bn1 bn2 = some [])
    ∧ (I.resolveBound bl1 = none ∨ I.resolveBound bl2 = none →
      I.loc_range bl1 bl2 = none)
    ∧ (Index.fromList "ideographs".toList).loc_range
        (.included 'g') (.excluded 'g') = some []
    ∧ (Index.fromList "ideographs".toList).loc_range
        (.included 'x') (.excluded 'x') = none := by
  refine ⟨?_, ?_, ?_, by decide, by decide⟩
  · intro h
    rcases h with h | h
    · simp [Index.iloc_range, h]
    · cases hs : I.startNodule bn1 <;> simp [Index.iloc_range, hs, h]
  · intro s c hs hc hlt
    simp only [Index.iloc_range, hs, hc]
    rw [Nat.sub_eq_zero_of_le (Nat.le_of_lt hlt)]
    simp [allSome]
  · intro h
    rcases h with h | h
    · simp [Index.loc_range, h]
    · cases hs : I.resolveBound bl1 <;> simp [Index.loc_range, hs, h]

theorem c3_witness :
    (Index.fromList [(10 : Nat)]).iloc_range (.included 2) (.excluded 2) = none
    ∧ (Index.fromList [(10 : Nat)]).iloc_range (.included 1) (.excluded 0) = some []
    ∧ (Index.fromList [(10 : Nat)]).loc_range (.included 20) .unbounded = none :=
  ⟨(c3_range_endpoint_validation Nat (Index.fromList [10])
      (.included 2) (.excluded 2) .unbounded .unbounded).1 (Or.inl (by decide)),
   (c3_range_endpoint_validation Nat (Index.fromList [10])
      (.included 1) (.excluded 0) .unbounded .unbounded).2.1 1 0
      (by decide) (by decide) (by decide),
   (c3_range_endpoint_validation Nat (Index.fromList [10])
      .unbounded .unbounded (.included 20) .unbounded).2.2.1 (Or.inl (by decide))⟩

/-- C6: position/label lookup is a bijection: for every position `p < len`,
`loc(iloc(p)) == Some(p)` (with `loc` the position-of-label lookup
`index_of`), and for every contained label `l`, `iloc(loc(l)) == Some(l)`. -/
theorem c6_loc_iloc_bijection (L : Type) [DecidableEq L] (I : Index L) :
    (∀ p, p < I.len → (I.iloc p).bind I.index_of = some p)
    ∧ (∀ l, l ∈ I.labels → (I.index_of l).bind I.iloc = some l) := by
  constructor
  · intro p hp
    obtain ⟨l0, hl⟩ : ∃ l0, I.labels[p]? = some l0 :=
      ⟨_, List.getElem?_eq_getElem hp⟩
    simp only [Index.iloc, hl, Option.some_bind, Index.index_of]
    exact idxOfList_of_getElem I.labels p l0 I.nodup hl
  · intro l hl
    obtain ⟨p, h1, h2⟩ := idxOfList_of_mem I.labels l hl
    simp [Index.index_of, h1, Index.iloc, h2]

theorem c6_witness :
    ((Index.fromList [(10 : Nat), 20]).iloc 1).bind
        (Index.fromList [(10 : Nat), 20]).index_of = some 1
    ∧ ((Index.fromList [(10 : Nat), 20]).index_of 20).bind
        (Index.fromList [(10 : Nat), 20]).iloc = some 20 :=
  ⟨(c6_loc_iloc_bijection Nat (Index.fromList [10, 20])).1 1 (by decide),
   (c6_loc_iloc_bijection Nat (Index.fromList [10, 20])).2 20 (by decide)⟩

/-- C8: `arg_sort` is a permutation of `[0, len)` (no duplicates, no gaps),
the labels it addresses read in ascending order, the `Index` is not mutated
(`arg_sort` is a pure function of the index), and
`Index::from([9,5,3,8,6,0,1,2,7,4]).arg_sort() == [5,6,7,2,9,1,4,8,3,0]`. -/
theorem c8_arg_sort (L : Type) [LinearOrder L] [Inhabited L] (I : Index L) :
    I.arg_sort.Perm (List.range I.len)
    ∧ List.Sorted (· ≤ ·) (I.arg_sort.map fun p => I.labels.getD p default)
    ∧ (Index.fromList [9, 5, 3, 8, 6, 0, 1, 2, 7, 4]).arg_sort
        = [5, 6, 7, 2, 9, 1, 4, 8, 3, 0] := by
  refine ⟨List.perm_insertionSort _ _, ?_, by decide⟩
  haveI ht : IsTotal Nat
      (fun a b => I.labels.getD a default ≤ I.labels.getD b default) :=
    ⟨fun a b => le_total _ _⟩
  haveI htr : IsTrans Nat
      (fun a b => I.labels.getD a default ≤ I.labels.getD b default) :=
    ⟨fun a b c hab hbc => le_trans hab hbc⟩
  have hs := List.sorted_insertionSort
    (fun a b => I.labels.getD a default ≤ I.labels.getD b default)
    (List.range I.len)
  exact List.pairwise_map.mpr hs

/-- C7: `from_iter_checked` builds the series from the pairs in order when no
label repeats, fails (exposing no series) when one does, and on
`[(0,Some(a)), (1,None), (0,Some(b))]` returns
`Err(DuplicateIndexLabel { label: 0 })`. -/
theorem c7_from_iter_checked (L V : Type) [DecidableEq L] (pairs : List (L × V)) :
    ((pairs.map Prod.fst).Nodup →
      (Series.from_iter_checked pairs).toOption.map
          (fun s => (s.index.labels, s.values))
        = some (pairs.map Prod.fst, pairs.map Prod.snd))
    ∧ (¬ (pairs.map Prod.fst).Nodup →
      (Series.from_iter_checked (V := V) pairs).toOption = none)
    ∧ Series.from_iter_checked [((0 : Nat), some 'a'), (1, none), (0, some 'b')]
        = .error ⟨0⟩ := by
  refine ⟨?_, ?_, rfl⟩
  · intro h
    obtain ⟨s, h1, h2, h3⟩ := fromIterGo_ok pairs Index.empty []
      (by simpa [Index.empty] using h)
    rw [show Series.from_iter_checked pairs
        = Series.fromIterGo Index.empty [] pairs from rfl, h1]
    simp [Except.toOption, h2, h3, Index.empty]
  · intro h
    cases hr : Series.from_iter_checked (V := V) pairs with
    | error e => rfl
    | ok s =>
      exact absurd
        (by simpa [Index.empty] using fromIterGo_ok_nodup pairs Index.empty [] s hr)
        h

theorem c7_witness :
    (Series.from_iter_checked [((0 : Nat), 'a'), (1, 'b')]).toOption.map
        (fun s => (s.index.labels, s.values))
      = some ([((0 : Nat), 'a'), (1, 'b')].map Prod.fst,
          [((0 : Nat), 'a'), (1, 'b')].map Prod.snd)
    ∧ (Series.from_iter_checked [((0 : Nat), 'a'), (0, 'b')]).toOption = none :=
  ⟨(c7_from_iter_checked Nat Char [((0 : Nat), 'a'), (1, 'b')]).1 (by decide),
   (c7_from_iter_checked Nat Char [((0 : Nat), 'a'), (0, 'b')]).2.1 (by decide)⟩

/-- C5: `len(index()) == len(values())` is preserved by every public
operation: given a series satisfying the invariant, `retain`, `map`,
`drop_none` and `fill_none` re-establish it, and both fallible constructors
(`from_iter_checked`, `from_values`) only ever return a series satisfying
it. -/
theorem c5_length_invariant (L V C R : Type) [DecidableEq L]
    (s : Series L V) (pred : L → V → Bool) (f : V → C)
    (s2 : Series L (Option R)) (r : R)
    (pairs : List (L × V)) (idx : Index L) (vals : List V)
    (h : lenInvariant s) (h2 : lenInvariant s2) :
    lenInvariant (s.retain pred)
    ∧ lenInvariant (s.map f)
    ∧ lenInvariant s2.drop_none
    ∧ lenInvariant (s2.fill_none r)
    ∧ lenInvariantExcept (Series.from_iter_checked pairs)
    ∧ lenInvariantExcept (Series.from_values idx vals) := by
  have hlen : s.index.labels.length = s.values.length := h
  have hlen2 : s2.index.labels.length = s2.values.length := h2
  refine ⟨?_, ?_, ?_, ?_, ?_, ?_⟩
  · simp only [Series.retain]
    split
    · exact h
    · exact filterIdx_length_eq _ s.index.labels s.values 0 hlen
  · simpa [Series.map, lenInvariant, Index.len] using hlen
  · simp only [Series.drop_none]
    split
    · rename_i hempty
      have hnil : nonePos 0 s2.values = [] := by
        simpa using hempty
      have := nonePos_nil_filterMap s2.values 0 hnil
      simpa [lenInvariant, Index.len, this] using hlen2
    · show (filterIdx (fun p => !decide (p ∈ nonePos 0 s2.values))
          s2.index.labels 0).length = (s2.values.filterMap id).length
      rw [filterIdx_nonePos s2.values s2.index.labels 0 hlen2]
      exact zip_filter_isSome_length s2.index.labels s2.values hlen2
  · simpa [Series.fill_none, lenInvariant, Index.len] using hlen2
  · cases hr : Series.from_iter_checked pairs with
    | error e => simp [lenInvariantExcept]
    | ok t =>
      have := fromIterGo_len pairs Index.empty [] t rfl hr
      simpa [lenInvariantExcept] using this
  · simp only [Series.from_values]
    split
    · simp [lenInvariantExcept]
    · rename_i hne
      have : idx.len = vals.length := by
        by_contra hc
        exact hne hc
      simpa [lenInvariantExcept, lenInvariant] using this

theorem c5_witness :
    lenInvariant (sampleSeries.retain fun l _ => decide (l = 0))
    ∧ lenInvariant (sampleSeries.map Char.toNat)
    ∧ lenInvariant sampleOptSeries.drop_none
    ∧ lenInvariant (sampleOptSeries.fill_none 'x')
    ∧ lenInvariantExcept (Series.from_iter_checked [((0 : Nat), 'a'), (1, 'b')])
    ∧ lenInvariantExcept (Series.from_values (Index.fromList [(0 : Nat)]) ['a']) :=
  c5_length_invariant Nat Char Nat Char sampleSeries
    (fun l _ => decide (l = 0)) Char.toNat sampleOptSeries 'x'
    [((0 : Nat), 'a'), (1, 'b')] (Index.fromList [(0 : Nat)]) ['a']
    (by decide) (by decide)

end Rustable
